import Mathlib

/-!
Shallow embedding of the width-transform module of the `tabled` table
library (`src/width.rs`) together with its caller-facing cell-mutation
contract, in the default (plain, non-color) build configuration: the
`#[cfg(not(feature = "color"))]` branches are the linked code, so a
"visible character" is a Unicode code point (`char`) and `str::len` is
the UTF-8 byte length.

Strings are modelled as `List Char` (Rust `&str` viewed through
`s.chars()`); `utf8Len` recovers Rust's `str::len` byte count.
Fallible/panicking code paths are modelled with `Option`: `none` is a
Rust panic (in this module the only panic source is the `i % width`
remainder-by-zero in `split`).
-/

/-- Rust `str::len` for a string given by its code points: the sum of the
UTF-8 encoded sizes of its characters. -/
def utf8Len (s : List Char) : Nat :=
  (s.map Char.utf8Size).sum

/-- Embedding of `strip` (plain mode): `s.chars().take(width).collect()`,
the first `width` code points of `s`. -/
def strip (s : List Char) (width : Nat) : List Char :=
  s.take width

/-- Embedding of the iterator body of `split` (plain mode), walking the
enumerated characters: at index `i`, emit `'\n'` before the character when
`i != 0 && i % width == 0`.  Rust evaluates `i % width` whenever `i != 0`,
and remainder by zero panics, which is modelled by `none`. -/
def splitGo (width : Nat) : Nat → List Char → Option (List Char)
  | _, [] => some []
  | i, c :: cs =>
    if i = 0 then
      (splitGo width (i + 1) cs).map (fun r => c :: r)
    else if width = 0 then
      none
    else if i % width = 0 then
      (splitGo width (i + 1) cs).map (fun r => '\n' :: c :: r)
    else
      (splitGo width (i + 1) cs).map (fun r => c :: r)

/-- Embedding of `split` (plain mode): enumerate the characters from index
0 and flat-map through the break-inserting body. -/
def split (s : List Char) (width : Nat) : Option (List Char) :=
  splitGo width 0 s

/-- The `Wrap<S>` enum of `width.rs`: either truncate with a filler/suffix
string, or hard-wrap. -/
inductive Wrap where
  | Truncate (filler : List Char)
  | Wrap

/-- The `MaxWidth<S>` cell option: a target width plus the wrap mode. -/
structure MaxWidth where
  width : Nat
  wrap : Wrap

/-- `MaxWidth::truncating(width, suffix)`. -/
def MaxWidth.truncating (width : Nat) (suffix : List Char) : MaxWidth :=
  ⟨width, Wrap.Truncate suffix⟩

/-- `MaxWidth::wrapping(width)`. -/
def MaxWidth.wrapping (width : Nat) : MaxWidth :=
  ⟨width, Wrap.Wrap⟩

/-- The external grid, reduced to the accessor contract the module uses:
a row/column indexed store of cell contents. -/
def Grid : Type := Nat → Nat → List Char

/-- `grid.set(&Entity::Cell(row, column), Settings::new().text(v))`:
overwrite one cell's content, leaving every other cell alone. -/
def Grid.set (g : Grid) (row column : Nat) (v : List Char) : Grid :=
  fun r c => if r = row ∧ c = column then v else g r c

/-- The decision logic of `MaxWidth::change_cell` as a function of the one
cell content it reads: `none` models a panic inside the body (reachable
only through `split`), `some none` means the body issues no `grid.set`
call, and `some (some v)` means the body issues exactly one
`grid.set(Entity::Cell(row, column), text(v))`.  The truncate arm writes
`strip(content, width) ++ filler` when the stripped content is strictly
byte-shorter than the original; the wrap arm writes `split(content, width)`
when its byte length differs from the original's. -/
def change_instr (m : MaxWidth) (content : List Char) : Option (Option (List Char)) :=
  match m.wrap with
  | Wrap.Truncate filler =>
    let striped_content := strip content m.width
    if utf8Len striped_content < utf8Len content then
      some (some (striped_content ++ filler))
    else
      some none
  | Wrap.Wrap =>
    match split content m.width with
    | none => none
    | some wrapped_content =>
      if utf8Len wrapped_content ≠ utf8Len content then
        some (some wrapped_content)
      else
        some none

/-- Embedding of `MaxWidth::change_cell(grid, row, column)`: read the cell
content at `(row, column)`, run the decision logic, and apply the issued
overwrite (if any) to the grid.  `none` models a panic. -/
def change_cell (m : MaxWidth) (grid : Grid) (row column : Nat) : Option Grid :=
  match change_instr m (grid row column) with
  | none => none
  | some none => some grid
  | some (some v) => some (grid.set row column v)

/-- The content a cell holds after the truncate transform is applied to it:
the stripped content plus the filler when `change_cell` overwrites the
cell, the original content otherwise.  (Derived one-to-one from the
`Wrap::Truncate` arm of `change_cell`.) -/
def truncate (content : List Char) (width : Nat) (filler : List Char) : List Char :=
  let striped_content := strip content width
  if utf8Len striped_content < utf8Len content then
    striped_content ++ filler
  else
    content

/-- Modelled from the spec: the percentage widen transform (`Percent`,
used by `examples/table_width.rs` through `Width::increase(Percent(200))`)
is not part of the source slice; only its caller appears.  Per the spec it
computes the target width from a reference width `w` and a percentage `p`
as `w * p / 100` with truncating integer division. -/
def percentTarget (w p : Nat) : Nat :=
  w * p / 100

/-- The panic-free value of `splitGo` (same traversal without the
remainder-by-zero case), used to reason about `split` when `width ≠ 0`. -/
def splitPure (w : Nat) : Nat → List Char → List Char
  | _, [] => []
  | i, c :: cs =>
    if i ≠ 0 ∧ i % w = 0 then '\n' :: c :: splitPure w (i + 1) cs
    else c :: splitPure w (i + 1) cs

/-- Following the spec's wording of the wrap contract: the content cut into
maximal fixed-width segments of `w` visible characters (the last segment may
be shorter).  Stated spec-side, to be proved equal to what `split` emits. -/
def chunks (w : Nat) (s : List Char) : List (List Char) :=
  if h : s.length ≤ w ∨ w = 0 then [s]
  else s.take w :: chunks w (s.drop w)
termination_by s.length
decreasing_by
  push_neg at h
  simp only [List.length_drop]
  omega

/-- Following the spec's wording: join the produced segments with a single
line-break character between them (not trailing). -/
def joinLines : List (List Char) → List Char
  | [] => []
  | [l] => l
  | l :: ls => l ++ '\n' :: joinLines ls

theorem utf8Len_append (a b : List Char) : utf8Len (a ++ b) = utf8Len a + utf8Len b := by
  simp [utf8Len]

theorem utf8Len_pos {s : List Char} (h : s ≠ []) : 0 < utf8Len s := by
  cases s with
  | nil => exact absurd rfl h
  | cons c cs =>
    have hc : 0 < c.utf8Size := c.utf8Size_pos
    simp only [utf8Len, List.map_cons, List.sum_cons]
    omega

theorem utf8Len_take_lt {s : List Char} {w : Nat} (h : w < s.length) :
    utf8Len (s.take w) < utf8Len s := by
  have hsplit : s.take w ++ s.drop w = s := List.take_append_drop w s
  have hdrop : s.drop w ≠ [] := by
    have : (s.drop w).length = s.length - w := List.length_drop w s
    intro hnil
    rw [hnil] at this
    simp at this
    omega
  have := utf8Len_pos hdrop
  calc utf8Len (s.take w) < utf8Len (s.take w) + utf8Len (s.drop w) := by omega
    _ = utf8Len (s.take w ++ s.drop w) := (utf8Len_append _ _).symm
    _ = utf8Len s := by rw [hsplit]

theorem truncate_of_length_le {s : List Char} {w : Nat} (f : List Char)
    (h : s.length ≤ w) : truncate s w f = s := by
  simp [truncate, strip, List.take_of_length_le h]

theorem truncate_of_lt_length {s : List Char} {w : Nat} (f : List Char)
    (h : w < s.length) : truncate s w f = s.take w ++ f := by
  simp [truncate, strip, utf8Len_take_lt h]

theorem splitGo_eq_splitPure {w : Nat} (hw : w ≠ 0) (s : List Char) (i : Nat) :
    splitGo w i s = some (splitPure w i s) := by
  induction s generalizing i with
  | nil => rfl
  | cons c cs ih =>
    by_cases hi : i = 0
    · subst hi
      simp [splitGo, splitPure, ih]
    · by_cases hm : i % w = 0
      · simp [splitGo, splitPure, hi, hw, hm, ih]
      · simp [splitGo, splitPure, hi, hw, hm, ih]

theorem splitPure_append (w : Nat) (t u : List Char) (i : Nat) :
    splitPure w i (t ++ u) = splitPure w i t ++ splitPure w (i + t.length) u := by
  induction t generalizing i with
  | nil => simp [splitPure]
  | cons c cs ih =>
    simp only [List.cons_append, splitPure, List.length_cons]
    have harith : i + 1 + cs.length = i + (cs.length + 1) := by omega
    by_cases hb : i ≠ 0 ∧ i % w = 0
    · simp [hb, ih, harith]
    · simp [hb, ih, harith]

theorem splitPure_of_no_break {w : Nat} (s : List Char) (i : Nat) (hi : 0 < i)
    (hle : i + s.length ≤ w) : splitPure w i s = s := by
  induction s generalizing i with
  | nil => rfl
  | cons c cs ih =>
    have hiw : i < w := by simp only [List.length_cons] at hle; omega
    have hm : i % w = i := Nat.mod_eq_of_lt hiw
    have hb : ¬(i ≠ 0 ∧ i % w = 0) := by
      rw [hm]
      omega
    simp only [splitPure, hb, if_neg, if_false]
    rw [ih (i + 1) (by omega) (by simp only [List.length_cons] at hle; omega)]

theorem splitPure_zero_of_le {w : Nat} {s : List Char} (hle : s.length ≤ w) :
    splitPure w 0 s = s := by
  cases s with
  | nil => rfl
  | cons c cs =>
    simp only [splitPure]
    rw [if_neg (by simp)]
    rw [splitPure_of_no_break cs 1 (by omega)
      (by simp only [List.length_cons] at hle; omega)]

theorem splitPure_congr_mod {w : Nat} (s : List Char) (i j : Nat)
    (hij : i % w = j % w) (hi : i ≠ 0) (hj : j ≠ 0) :
    splitPure w i s = splitPure w j s := by
  induction s generalizing i j with
  | nil => rfl
  | cons c cs ih =>
    have hsucc : (i + 1) % w = (j + 1) % w := by
      rw [Nat.add_mod i 1 w, Nat.add_mod j 1 w, hij]
    have hrec := ih (i + 1) (j + 1) hsucc (by omega) (by omega)
    by_cases hm : i % w = 0
    · have hm' : j % w = 0 := by rw [← hij]; exact hm
      simp [splitPure, hi, hj, hm, hm', hrec]
    · have hm' : ¬(j % w = 0) := by rw [← hij]; exact hm
      simp [splitPure, hi, hj, hm, hm', hrec]

theorem splitPure_at_w {w : Nat} (hw : w ≠ 0) {s : List Char} (hs : s ≠ []) :
    splitPure w w s = '\n' :: splitPure w 0 s := by
  cases s with
  | nil => exact absurd rfl hs
  | cons c cs =>
    have hshift : splitPure w (w + 1) cs = splitPure w 1 cs :=
      splitPure_congr_mod cs (w + 1) 1 (Nat.add_mod_left w 1) (by omega) (by omega)
    simp only [splitPure]
    rw [if_pos ⟨hw, Nat.mod_self w⟩, if_neg (by simp)]
    rw [hshift]

theorem chunks_ne_nil (w : Nat) (s : List Char) : chunks w s ≠ [] := by
  rw [chunks]
  split <;> simp

theorem joinLines_cons (l : List Char) {ls : List (List Char)} (h : ls ≠ []) :
    joinLines (l :: ls) = l ++ '\n' :: joinLines ls := by
  cases ls with
  | nil => exact absurd rfl h
  | cons a t => rfl

theorem chunks_length_le {w : Nat} (hw : w ≠ 0) (s : List Char) :
    ∀ l ∈ chunks w s, l.length ≤ w := by
  rw [chunks]
  by_cases h : s.length ≤ w ∨ w = 0
  · rw [dif_pos h]
    intro l hl
    rw [List.mem_singleton] at hl
    subst hl
    rcases h with h | h
    · exact h
    · exact absurd h hw
  · rw [dif_neg h]
    push_neg at h
    intro l hl
    rcases List.mem_cons.mp hl with hl | hl
    · subst hl
      rw [List.length_take]
      omega
    · exact chunks_length_le hw (s.drop w) l hl
termination_by s.length
decreasing_by
  push_neg at h
  simp only [List.length_drop]
  omega

theorem chunks_flatten {w : Nat} (hw : w ≠ 0) (s : List Char) :
    (chunks w s).flatten = s := by
  rw [chunks]
  by_cases h : s.length ≤ w ∨ w = 0
  · rw [dif_pos h]
    simp
  · rw [dif_neg h]
    rw [List.flatten_cons, chunks_flatten hw (s.drop w), List.take_append_drop]
termination_by s.length
decreasing_by
  push_neg at h
  simp only [List.length_drop]
  omega

theorem splitPure_eq_joinLines {w : Nat} (hw : w ≠ 0) (s : List Char) :
    splitPure w 0 s = joinLines (chunks w s) := by
  rw [chunks]
  by_cases h : s.length ≤ w ∨ w = 0
  · rw [dif_pos h]
    rcases h with h | h
    · exact splitPure_zero_of_le h
    · exact absurd h hw
  · rw [dif_neg h]
    push_neg at h
    obtain ⟨hlt, _⟩ := h
    have htl : (s.take w).length = w := by rw [List.length_take]; omega
    have hdrop : s.drop w ≠ [] := by
      have hld : (s.drop w).length = s.length - w := List.length_drop w s
      intro hnil
      rw [hnil] at hld
      simp at hld
      omega
    have ih := splitPure_eq_joinLines hw (s.drop w)
    rw [joinLines_cons _ (chunks_ne_nil w (s.drop w))]
    conv_lhs => rw [← List.take_append_drop w s]
    rw [splitPure_append, htl, Nat.zero_add,
      splitPure_zero_of_le (le_of_eq htl), splitPure_at_w hw hdrop, ih]
termination_by s.length
decreasing_by
  simp only [List.length_drop]
  omega

theorem split_eq_joinLines_chunks {w : Nat} (hw : w ≠ 0) (s : List Char) :
    split s w = some (joinLines (chunks w s)) := by
  rw [split, splitGo_eq_splitPure hw, splitPure_eq_joinLines hw]

theorem utf8Len_cons (c : Char) (xs : List Char) :
    utf8Len (c :: xs) = c.utf8Size + utf8Len xs := by
  simp [utf8Len]

theorem utf8Len_joinLines (ls : List (List Char)) (h : ls ≠ []) :
    utf8Len (joinLines ls) = utf8Len ls.flatten + (ls.length - 1) := by
  induction ls with
  | nil => exact absurd rfl h
  | cons l ls ih =>
    cases ls with
    | nil => simp [joinLines, List.flatten]
    | cons a t =>
      rw [joinLines_cons l (by simp)]
      rw [utf8Len_append, utf8Len_cons, ih (by simp)]
      have hn : ('\n' : Char).utf8Size = 1 := by decide
      simp only [List.flatten_cons, utf8Len_append, List.length_cons]
      omega

theorem chunks_two_le {w : Nat} {s : List Char} (hw : w ≠ 0) (h : w < s.length) :
    2 ≤ (chunks w s).length := by
  rw [chunks, dif_neg (by push_neg; exact ⟨by omega, hw⟩)]
  have h1 : 0 < (chunks w (s.drop w)).length :=
    List.length_pos.mpr (chunks_ne_nil w (s.drop w))
  simp only [List.length_cons]
  omega

-- Sanity checks against the spec's concrete scenarios (plain mode).
example : truncate "Hello World!!!".toList 5 "...".toList = "Hello...".toList := by decide
example : truncate "Hi".toList 5 "...".toList = "Hi".toList := by decide
example : split "123456789".toList 5 = some "12345\n6789".toList := by decide
example : split "abc".toList 0 = none := by decide
example : percentTarget 100 200 = 200 := by decide
example : truncate [] 0 "...".toList = [] := by decide
example : change_instr (MaxWidth.truncating 1 "x".toList) "ab".toList
    = some (some "ax".toList) := by decide

/-- C5: content whose visible width (code-point count, plain mode) is within
the max width is returned unchanged by truncation, and `change_cell` issues
no overwrite for it. -/
theorem truncate_noop_within_budget (s : List Char) (w : Nat) (f : List Char)
    (h : s.length ≤ w) :
    truncate s w f = s ∧ change_instr (MaxWidth.truncating w f) s = some none := by
  refine ⟨truncate_of_length_le f h, ?_⟩
  simp [change_instr, MaxWidth.truncating, strip, List.take_of_length_le h]

/-- Witness for C5 at the spec's own scenario `truncate("Hi", 5, "...")`. -/
theorem truncate_noop_within_budget_witness :
    "Hi".toList.length ≤ 5 ∧
      (truncate "Hi".toList 5 "...".toList = "Hi".toList ∧
        change_instr (MaxWidth.truncating 5 "...".toList) "Hi".toList = some none) :=
  ⟨by decide, truncate_noop_within_budget "Hi".toList 5 "...".toList (by decide)⟩

/-- C6: when the content's visible width exceeds the max width, the result is
the width-character visible prefix with the filler appended verbatim, the
pre-filler portion having exactly `w` characters; concretely
`truncate("Hello World!!!", 5, "...") = "Hello..."`. -/
theorem truncate_cut_appends_filler (s : List Char) (w : Nat) (f : List Char)
    (h : w < s.length) :
    truncate s w f = s.take w ++ f ∧ (s.take w).length = w ∧
      truncate "Hello World!!!".toList 5 "...".toList = "Hello...".toList := by
  refine ⟨truncate_of_lt_length f h, ?_, by decide⟩
  rw [List.length_take]
  omega

/-- Witness for C6 at the spec's own scenario. -/
theorem truncate_cut_appends_filler_witness :
    5 < "Hello World!!!".toList.length ∧
      (truncate "Hello World!!!".toList 5 "...".toList
          = "Hello World!!!".toList.take 5 ++ "...".toList ∧
        ("Hello World!!!".toList.take 5).length = 5 ∧
        truncate "Hello World!!!".toList 5 "...".toList = "Hello...".toList) :=
  ⟨by decide, truncate_cut_appends_filler "Hello World!!!".toList 5 "...".toList (by decide)⟩

/-- C7: truncation is idempotent — applying `truncate` a second time with the
same width and filler changes nothing (stated, as the spec does, under
`len(f) ≤ w`, although the code satisfies it unconditionally). -/
theorem truncate_idempotent (s : List Char) (w : Nat) (f : List Char)
    (hf : f.length ≤ w) :
    truncate (truncate s w f) w f = truncate s w f := by
  by_cases h : s.length ≤ w
  · rw [truncate_of_length_le f h, truncate_of_length_le f h]
  · push_neg at h
    rw [truncate_of_lt_length f h]
    by_cases hf0 : f = []
    · subst hf0
      rw [List.append_nil]
      apply truncate_of_length_le
      rw [List.length_take]
      omega
    · have hlen : (s.take w).length = w := by rw [List.length_take]; omega
      have hlt : w < (s.take w ++ f).length := by
        rw [List.length_append, hlen]
        have : 0 < f.length := List.length_pos.mpr hf0
        omega
      rw [truncate_of_lt_length f hlt]
      congr 1
      rw [List.take_append_eq_append_take, hlen, Nat.sub_self, List.take_zero,
        List.append_nil, List.take_take, Nat.min_self]

/-- Witness for C7 on a content that is actually cut. -/
theorem truncate_idempotent_witness :
    ".".toList.length ≤ 3 ∧
      truncate (truncate "abcdef".toList 3 ".".toList) 3 ".".toList
        = truncate "abcdef".toList 3 ".".toList :=
  ⟨by decide, truncate_idempotent "abcdef".toList 3 ".".toList (by decide)⟩

/-- C10: an empty cell content never triggers a write under truncation, for
every max width and every filler (including width 0 with a non-empty
filler), so an empty cell stays empty. -/
theorem truncate_empty_no_write (w : Nat) (f : List Char) :
    change_instr (MaxWidth.truncating w f) [] = some none ∧ truncate [] w f = [] := by
  constructor <;> simp [change_instr, MaxWidth.truncating, truncate, strip, utf8Len]

/-- C4: for every positive width, `split` succeeds and produces exactly the
content cut into `w`-character segments joined by single line breaks: every
produced segment has visible width (code-point count) at most `w`, deleting
the inserted breaks (concatenating the segments) reconstructs the content,
and concretely `wrap("123456789", 5) = "12345\n6789"`. -/
theorem wrap_round_trip (s : List Char) (w : Nat) (hw : 0 < w) :
    split s w = some (joinLines (chunks w s)) ∧
      (∀ l ∈ chunks w s, l.length ≤ w) ∧
      (chunks w s).flatten = s ∧
      split "123456789".toList 5 = some "12345\n6789".toList := by
  have hw' : w ≠ 0 := by omega
  exact ⟨split_eq_joinLines_chunks hw' s, chunks_length_le hw' s,
    chunks_flatten hw' s, by decide⟩

/-- Witness for C4 at the spec's own scenario `wrap("123456789", 5)`. -/
theorem wrap_round_trip_witness :
    0 < 5 ∧
      (split "123456789".toList 5 = some (joinLines (chunks 5 "123456789".toList)) ∧
        (∀ l ∈ chunks 5 "123456789".toList, l.length ≤ 5) ∧
        (chunks 5 "123456789".toList).flatten = "123456789".toList ∧
        split "123456789".toList 5 = some "12345\n6789".toList) :=
  ⟨by decide, wrap_round_trip "123456789".toList 5 (by decide)⟩

/-- C1: refuted on the default (plain) build: `wrap("abc", 0)` does not
return the content unchanged — `split` evaluates `1 % 0` and panics
(remainder by zero, modelled by `none`).  Only the color-feature branch has
the `width == 0` guard the spec describes. -/
theorem wrap_zero_width_panics : split "abc".toList 0 = none := by decide

/-- C2 counterexample: truncating `"ab"` to width 1 with filler `"x"` issues
an overwrite with new content `"ax"` even though the new content's byte
length equals the original's — the code compares the stripped prefix's byte
length against the original, not the new content's. -/
theorem change_cell_length_heuristic_cex :
    change_instr (MaxWidth.truncating 1 "x".toList) "ab".toList
        = some (some "ax".toList) ∧
      utf8Len "ax".toList = utf8Len "ab".toList := by decide

/-- C2 amended: `change_cell` issues an overwrite exactly when the cell
content has strictly more characters than the configured width: the
truncate arm then writes the stripped prefix plus filler (the filler's
length is never consulted, so the write happens even when the new byte
length coincidentally equals the original's), and the wrap arm (positive
width) writes the split content, whose byte length always differs;
otherwise no write is issued. -/
theorem change_cell_write_condition (s : List Char) (w : Nat) (f : List Char) :
    (change_instr (MaxWidth.truncating w f) s
        = if w < s.length then some (some (s.take w ++ f)) else some none) ∧
      (0 < w →
        change_instr (MaxWidth.wrapping w) s
          = if w < s.length then some (some (joinLines (chunks w s))) else some none) := by
  constructor
  · by_cases h : w < s.length
    · rw [if_pos h]
      simp [change_instr, MaxWidth.truncating, strip, utf8Len_take_lt h]
    · rw [if_neg h]
      push_neg at h
      simp [change_instr, MaxWidth.truncating, strip, List.take_of_length_le h]
  · intro hw
    have hw' : w ≠ 0 := by omega
    simp only [change_instr, MaxWidth.wrapping]
    rw [split_eq_joinLines_chunks hw' s]
    by_cases h : w < s.length
    · rw [if_pos h]
      have hne : utf8Len (joinLines (chunks w s)) ≠ utf8Len s := by
        rw [utf8Len_joinLines (chunks w s) (chunks_ne_nil w s), chunks_flatten hw' s]
        have h2 := chunks_two_le hw' h
        omega
      simp [hne]
    · rw [if_neg h]
      push_neg at h
      have hch : chunks w s = [s] := by rw [chunks, dif_pos (Or.inl h)]
      rw [hch]
      simp [joinLines]

/-- Witness for C2's amended statement: both arms at width 1 on `"ab"`, and
the truncate arm additionally at width 0 on `"abc"`. -/
theorem change_cell_write_condition_witness :
    (change_instr (MaxWidth.truncating 1 "x".toList) "ab".toList
        = if 1 < "ab".toList.length then
            some (some ("ab".toList.take 1 ++ "x".toList))
          else some none) ∧
      (change_instr (MaxWidth.wrapping 1) "ab".toList
        = if 1 < "ab".toList.length then
            some (some (joinLines (chunks 1 "ab".toList)))
          else some none) ∧
      (change_instr (MaxWidth.truncating 0 "...".toList) "abc".toList
        = if 0 < "abc".toList.length then
            some (some ("abc".toList.take 0 ++ "...".toList))
          else some none) :=
  ⟨(change_cell_write_condition "ab".toList 1 "x".toList).1,
    (change_cell_write_condition "ab".toList 1 "x".toList).2 (by decide),
    (change_cell_write_condition "abc".toList 0 "...".toList).1⟩

/-- C3 counterexample: on empty content, truncating to width 0 with the
non-empty filler `"..."` leaves the cell empty (no write is issued), not
equal to the filler alone. -/
theorem truncate_zero_width_cex :
    truncate [] 0 "...".toList = [] ∧
      ([] : List Char) ≠ "...".toList ∧
      change_instr (MaxWidth.truncating 0 "...".toList) [] = some none := by
  decide

/-- C3 amended: truncating to width 0 yields the filler alone for every
NON-EMPTY content; empty content triggers no write and stays empty, so
with the empty filler the result is the empty string for every content. -/
theorem truncate_zero_width (s f : List Char) :
    (s ≠ [] → truncate s 0 f = f) ∧ truncate s 0 [] = [] := by
  constructor
  · intro hs
    rw [truncate_of_lt_length f (List.length_pos.mpr hs)]
    simp
  · by_cases hs : s = []
    · subst hs
      rfl
    · rw [truncate_of_lt_length [] (List.length_pos.mpr hs)]
      simp

/-- Witness for C3's amended statement on `"abc"`. -/
theorem truncate_zero_width_witness :
    truncate "abc".toList 0 "...".toList = "...".toList ∧
      truncate "abc".toList 0 [] = [] :=
  ⟨(truncate_zero_width "abc".toList "...".toList).1 (by decide),
    (truncate_zero_width "abc".toList "...".toList).2⟩

/-- A concrete one-content grid used to instantiate the frame theorem. -/
def gridAB : Grid := fun _ _ => "ab".toList

/-- C8: `change_cell` reads only the addressed cell and writes at most the
addressed cell: on every non-panicking run the content of every other cell
is unchanged, and the resulting content of the addressed cell is the same
for any two grids that agree on that one cell (so no other cell's content
is consulted). -/
theorem change_cell_frame (m : MaxWidth) (g₁ g₂ : Grid) (row column : Nat)
    (g₁' g₂' : Grid) (hrc : g₁ row column = g₂ row column)
    (h₁ : change_cell m g₁ row column = some g₁')
    (h₂ : change_cell m g₂ row column = some g₂') :
    (∀ r c, ¬(r = row ∧ c = column) → g₁' r c = g₁ r c) ∧
      g₁' row column = g₂' row column := by
  unfold change_cell at h₁ h₂
  rw [← hrc] at h₂
  cases hinstr : change_instr m (g₁ row column) with
  | none =>
    rw [hinstr] at h₁
    exact absurd h₁ (by simp)
  | some o =>
    rw [hinstr] at h₁ h₂
    cases o with
    | none =>
      simp only [Option.some.injEq] at h₁ h₂
      subst h₁
      subst h₂
      exact ⟨fun r c _ => rfl, hrc⟩
    | some v =>
      simp only [Option.some.injEq] at h₁ h₂
      subst h₁
      subst h₂
      refine ⟨fun r c hne => ?_, ?_⟩
      · simp [Grid.set, hne]
      · simp [Grid.set]

/-- Witness for C8: truncating width 1, filler `"x"`, on a grid whose every
cell holds `"ab"`, addressed at (0, 0). -/
theorem change_cell_frame_witness :
    (∀ r c, ¬(r = 0 ∧ c = 0) → (gridAB.set 0 0 "ax".toList) r c = gridAB r c) ∧
      (gridAB.set 0 0 "ax".toList) 0 0 = (gridAB.set 0 0 "ax".toList) 0 0 :=
  change_cell_frame (MaxWidth.truncating 1 "x".toList) gridAB gridAB 0 0
    (gridAB.set 0 0 "ax".toList) (gridAB.set 0 0 "ax".toList) rfl rfl rfl

/-- C9: the percentage widen target is `w * p / 100` with truncating integer
division — 200% of reference width 100 is 200, and in general the target is
the unique `q` with `100 * q ≤ w * p < 100 * (q + 1)`. -/
theorem percent_target_spec :
    percentTarget 100 200 = 200 ∧
      ∀ w p : Nat,
        100 * percentTarget w p ≤ w * p ∧ w * p < 100 * (percentTarget w p + 1) := by
  refine ⟨by decide, fun w p => ?_⟩
  unfold percentTarget
  have hdm := Nat.div_add_mod (w * p) 100
  have hlt : (w * p) % 100 < 100 := Nat.mod_lt _ (by omega)
  omega
